import Mathlib

/-!
Verification of the modular-exponentiation algorithms in
`exponentiation.py`: the naive loop `pow_step_by_step`, the binary
square-and-multiply `pow_binary`, the generic windowed driver
`pow_window`, and its two partitioning strategies
`partition_window_same_width` (fixed width) and `partition_window_clnw`
(constant-length nonzero windows).

Python's unbounded non-negative integers are modelled by `ℕ`; Python's
bitwise operators map to `ℕ`'s exact `&&&`, `>>>`, `<<<`; `raise` is
modelled by `Except`; a list indexing that can fail (`IndexError`) is
modelled by `Option`.  The two `while` loops whose bounds are not
structural (the binary-method loop and the CLNW scan) are written with an
explicit fuel argument that bounds the number of iterations; theorems
below show the chosen fuel is never exhausted on the source's reachable
inputs, which is exactly the termination argument for the Python loops.
-/

namespace Exponentiation

/-- Helper for `bitLen`: structural recursion on a fuel bound.
`bitLenAux fuel n` computes the bit length of `n` provided `n ≤ fuel`. -/
def bitLenAux : ℕ → ℕ → ℕ
  | 0, _ => 0
  | fuel + 1, n => if n = 0 then 0 else bitLenAux fuel (n / 2) + 1

/-- Python's `int.bit_length()` for non-negative integers:
the least `k` with `n < 2 ^ k`.  (`bitLen 0 = 0`.) -/
def bitLen (n : ℕ) : ℕ := bitLenAux n n

/-- One window of the partitioned exponent: the Python dict
`{"value": v, "length": l}`. -/
structure Window where
  value : ℕ
  length : ℕ
deriving DecidableEq

/-- The exceptions raised by the two partitioners
(`raise Exception(...)` in the source), plus a marker for a scan loop
that would not terminate within its fuel (never produced on the
source's reachable inputs, see `partition_window_clnw_ok`). -/
inductive PartitionError where
  | invalidParameter : PartitionError
  | loopFailure : PartitionError
deriving DecidableEq

/-- `pow_step_by_step x exp mod`: `y = 1`, then `exp` times
`y = (y * x) % mod`.  Note the initial `1` is returned unreduced when
`exp = 0`. -/
def pow_step_by_step (x : ℕ) : ℕ → ℕ → ℕ
  | 0, _ => 1
  | exp + 1, mod => (pow_step_by_step x exp mod * x) % mod

/-- Body of the `while exp != 0` loop of `pow_binary`, with fuel
bounding the number of iterations.  One iteration: if `exp` is odd,
multiply the accumulator by `x` and decrement `exp`; then halve `exp`
and square `x`, both modulo `mod`. -/
def pow_binary_go (mod : ℕ) : ℕ → ℕ → ℕ → ℕ → ℕ
  | 0, _, _, y => y
  | fuel + 1, x, exp, y =>
    if exp = 0 then y
    else
      let y2 := if exp % 2 ≠ 0 then (y * x) % mod else y
      let e2 := (if exp % 2 ≠ 0 then exp - 1 else exp) >>> 1
      pow_binary_go mod fuel ((x * x) % mod) e2 y2

/-- `pow_binary x exp mod`: right-to-left square and multiply.  The loop
halves `exp` every iteration, so `exp` itself is a sufficient fuel. -/
def pow_binary (x exp mod : ℕ) : ℕ := pow_binary_go mod exp x exp 1

/-- The precomputed table `[x**i % mod for i in range(0, 2**max_len)]`
built by `pow_window`. -/
def precomputed_powers_of_x (x mod max_len : ℕ) : List ℕ :=
  (List.range (2 ^ max_len)).map fun i => x ^ i % mod

/-- The inner `for j in range(0, length)` loop of `pow_window`:
square the accumulator `n` times modulo `mod`. -/
def sqIter (mod : ℕ) : ℕ → ℕ → ℕ
  | 0, y => y
  | n + 1, y => sqIter mod n ((y * y) % mod)

/-- The main loop of `pow_window`, already oriented most-significant
window first (the Python source iterates `reversed(range(0, len - 1))`
over the LSB-first list).  For each window: square once per bit of the
window's length, then, when the window value is nonzero, multiply by the
table entry for that value.  A table lookup out of range (Python
`IndexError`) yields `none`. -/
def pow_window_loop (mod : ℕ) (table : List ℕ) : List Window → ℕ → Option ℕ
  | [], y => some y
  | w :: rest, y =>
    let y1 := sqIter mod w.length y
    if w.value ≠ 0 then
      match table[w.value]? with
      | some t => pow_window_loop mod table rest ((y1 * t) % mod)
      | none => none
    else
      pow_window_loop mod table rest y1

/-- `pow_window x exp mod partition_window`: run the partitioner, build
the power table sized by the reported maximum window length, seed the
accumulator with the table entry of the most-significant window (the
last element of the LSB-first list, Python index `len - 1`), then replay
the remaining windows MSB-first.  A partitioner exception or an
out-of-range list index yields `none`. -/
def pow_window (x exp mod : ℕ)
    (partition_window : ℕ → Except PartitionError (List Window × ℕ)) : Option ℕ :=
  match partition_window exp with
  | Except.error _ => none
  | Except.ok (window_partitions, max_len) =>
    let table := precomputed_powers_of_x x mod max_len
    match window_partitions.getLast? with
    | none => none
    | some wLast =>
      match table[wLast.value]? with
      | none => none
      | some y0 => pow_window_loop mod table window_partitions.dropLast.reverse y0

/-- Inner `while not exp & 1 << position` scan of the CLNW partitioner:
counts the consecutive zero bits of `exp` starting at `position`.  The
fuel bounds the scan; the caller passes `bitLen exp - position`, and on
reachable inputs the scan stops strictly earlier, at the first 1-bit
(see `zscan_lt_bitLen`). -/
def zscan (exp : ℕ) : ℕ → ℕ → ℕ
  | _, 0 => 0
  | position, fuel + 1 =>
    if exp.testBit position then 0 else zscan exp (position + 1) fuel + 1

/-- Outer `while position < exp.bit_length()` loop of
`partition_window_clnw`, with fuel bounding the number of emitted
windows.  On a 0-bit, emit a zero window of length `zscan ...`; on a
1-bit, emit a nonzero window of exactly `d` bits
(`exp >> position & ((1 << d) - 1)`, the Python
`exp >> (position - length) & ((1 << length) - 1)` after the inner scan
advanced `position` by `length = d`). -/
def clnwLoop (exp d : ℕ) : ℕ → ℕ → Option (List Window)
  | position, 0 => if position < bitLen exp then none else some []
  | position, fuel + 1 =>
    if position < bitLen exp then
      if exp.testBit position then
        (clnwLoop exp d (position + d) fuel).map
          (fun rest => { value := (exp >>> position) &&& ((1 <<< d) - 1),
                         length := d } :: rest)
      else
        (clnwLoop exp d (position + zscan exp position (bitLen exp - position)) fuel).map
          (fun rest => { value := 0,
                         length := zscan exp position (bitLen exp - position) } :: rest)
    else some []

/-- Sum of the lengths of a window list. -/
def sumLens : List Window → ℕ
  | [] => 0
  | w :: ws => w.length + sumLens ws

/-- Running maximum of the window lengths, starting from `0`
(the source's `max_length = max(max_length, length)` accumulator). -/
def maxLens : List Window → ℕ
  | [] => 0
  | w :: ws => max w.length (maxLens ws)

/-- `partition_window_clnw exp d`: raise when `d > exp.bit_length()`,
otherwise run the two-state scan from bit 0.  Each loop iteration
advances `position` by at least one bit, so `bitLen exp` outer
iterations are enough fuel. -/
def partition_window_clnw (exp nonzero_window_size : ℕ) :
    Except PartitionError (List Window × ℕ) :=
  if bitLen exp < nonzero_window_size then
    Except.error PartitionError.invalidParameter
  else
    match clnwLoop exp nonzero_window_size 0 (bitLen exp) with
    | some ws => Except.ok (ws, maxLens ws)
    | none => Except.error PartitionError.loopFailure

/-- `partition_window_same_width exp w`: raise when
`w >= exp.bit_length()`; otherwise window `i` (LSB first, for
`i < ceil(bitLen exp / w)`) is `((1 << w) - 1) & (exp >> i * w)` with
length `w`, and the reported maximum length is `w`.
`(bitLen exp + w - 1) / w` is the exact ceiling division written
`math.ceil(exp.bit_length() / window_size)` in the source. -/
def partition_window_same_width (exp window_size : ℕ) :
    Except PartitionError (List Window × ℕ) :=
  if bitLen exp ≤ window_size then
    Except.error PartitionError.invalidParameter
  else
    Except.ok
      ((List.range ((bitLen exp + window_size - 1) / window_size)).map
        fun i => { value := ((1 <<< window_size) - 1) &&& (exp >>> (i * window_size)),
                   length := window_size },
       window_size)

/-- `pow_window_same_width` wrapper from the source. -/
def pow_window_same_width (x exp mod window_size : ℕ) : Option ℕ :=
  pow_window x exp mod (fun e => partition_window_same_width e window_size)

/-- `pow_window_clnw` wrapper from the source. -/
def pow_window_clnw (x exp mod nonzero_window_size : ℕ) : Option ℕ :=
  pow_window x exp mod (fun e => partition_window_clnw e nonzero_window_size)

/-- Observer: the window list of a partitioner result (`[]` on error). -/
def partWindows : Except PartitionError (List Window × ℕ) → List Window
  | Except.ok (ws, _) => ws
  | Except.error _ => []

/-- Observer: the reported maximum window length of a partitioner result
(`0` on error). -/
def partMax : Except PartitionError (List Window × ℕ) → ℕ
  | Except.ok (_, m) => m
  | Except.error _ => 0

/-- Observer: whether a partitioner raised. -/
def isErr : Except PartitionError (List Window × ℕ) → Bool
  | Except.ok _ => false
  | Except.error _ => true

/-- Recombination of an LSB-first window list: each window's value
weighted by `2 ^ (sum of the lengths of the windows before it)`. -/
def windowsVal : List Window → ℕ
  | [] => 0
  | w :: ws => w.value + 2 ^ w.length * windowsVal ws

/-- Recombination of an MSB-first window list (used to reason about the
driver loop, which replays windows most-significant first). -/
def msbVal : List Window → ℕ
  | [] => 0
  | w :: ws => w.value * 2 ^ sumLens ws + msbVal ws

/-- Every zero window is immediately followed by a nonzero window
(in particular a zero window is never last). -/
def zeroWindowsFollowed : List Window → Bool
  | [] => true
  | [w] => w.value != 0
  | w1 :: w2 :: ws =>
    (w1.value != 0 || w2.value != 0) && zeroWindowsFollowed (w2 :: ws)

/-! ### Bit-length lemmas -/

theorem bitLenAux_le_iff : ∀ fuel n, n ≤ fuel → ∀ k, (bitLenAux fuel n ≤ k ↔ n < 2 ^ k) := by
  intro fuel
  induction fuel with
  | zero =>
    intro n hn k
    have h0 : n = 0 := by omega
    subst h0
    simp [bitLenAux, Nat.two_pow_pos]
  | succ fuel ih =>
    intro n hn k
    by_cases h0 : n = 0
    · subst h0
      simp [bitLenAux, Nat.two_pow_pos]
    · have hdiv : n / 2 ≤ fuel := by omega
      rw [bitLenAux, if_neg h0]
      cases k with
      | zero =>
        simp only [pow_zero]
        omega
      | succ k =>
        rw [Nat.succ_le_succ_iff, ih (n / 2) hdiv k, pow_succ]
        omega

theorem bitLen_le_iff {n k : ℕ} : bitLen n ≤ k ↔ n < 2 ^ k :=
  bitLenAux_le_iff n n le_rfl k

theorem lt_bitLen_iff {n k : ℕ} : k < bitLen n ↔ 2 ^ k ≤ n := by
  constructor
  · intro h
    by_contra hc
    have h2 : bitLen n ≤ k := bitLen_le_iff.mpr (by omega)
    omega
  · intro h
    by_contra hc
    have h2 : n < 2 ^ k := bitLen_le_iff.mp (by omega)
    omega

theorem lt_two_pow_bitLen (n : ℕ) : n < 2 ^ bitLen n :=
  bitLen_le_iff.mp le_rfl

theorem bitLen_pos {n : ℕ} (h : n ≠ 0) : 1 ≤ bitLen n := by
  rw [show (1 : ℕ) ≤ bitLen n ↔ 0 < bitLen n from Iff.rfl, lt_bitLen_iff]
  omega

theorem two_pow_bitLen_sub_one_le {n : ℕ} (h : n ≠ 0) : 2 ^ (bitLen n - 1) ≤ n := by
  have h1 := bitLen_pos h
  exact lt_bitLen_iff.mp (by omega)

theorem testBit_false_of_bitLen_le {n i : ℕ} (h : bitLen n ≤ i) : n.testBit i = false :=
  Nat.testBit_lt_two_pow
    (lt_of_lt_of_le (lt_two_pow_bitLen n) (Nat.pow_le_pow_right (by omega) h))

theorem testBit_msb {n : ℕ} (h : n ≠ 0) : n.testBit (bitLen n - 1) = true := by
  have h1 := two_pow_bitLen_sub_one_le h
  have hb := bitLen_pos h
  have h2 : n < 2 ^ (bitLen n - 1) * 2 := by
    have h3 := lt_two_pow_bitLen n
    have h4 : bitLen n - 1 + 1 = bitLen n := by omega
    rw [← pow_succ, h4]
    exact h3
  have hq : n / 2 ^ (bitLen n - 1) = 1 := by
    have hlo : 1 ≤ n / 2 ^ (bitLen n - 1) := (Nat.le_div_iff_mul_le (Nat.two_pow_pos _)).mpr (by omega)
    have hhi : n / 2 ^ (bitLen n - 1) < 2 := Nat.div_lt_of_lt_mul (by omega)
    omega
  rw [Nat.testBit_to_div_mod, hq]
  decide

/-! ### Shift lemmas -/

theorem shiftRight_eq_zero_of_bitLen_le {exp pos : ℕ} (h : bitLen exp ≤ pos) :
    exp >>> pos = 0 := by
  rw [Nat.shiftRight_eq_div_pow]
  exact Nat.div_eq_of_lt
    (lt_of_lt_of_le (lt_two_pow_bitLen exp) (Nat.pow_le_pow_right (by omega) h))

theorem shiftRight_mod_two {exp pos : ℕ} :
    (exp >>> pos) % 2 = if exp.testBit pos then 1 else 0 := by
  rw [Nat.testBit_to_div_mod, Nat.shiftRight_eq_div_pow]
  rcases Nat.mod_two_eq_zero_or_one (exp / 2 ^ pos) with h | h <;> simp [h]

theorem shiftRight_eq_two_mul {exp pos : ℕ} (h : exp.testBit pos = false) :
    exp >>> pos = 2 * (exp >>> (pos + 1)) := by
  have h2 : (exp >>> pos) % 2 = 0 := by rw [shiftRight_mod_two, h]; rfl
  have h3 : exp >>> (pos + 1) = exp >>> pos / 2 := Nat.shiftRight_succ exp pos
  omega

/-! ### Zero-scan lemmas -/

theorem zscan_shift (exp : ℕ) : ∀ fuel position,
    exp >>> position =
      2 ^ zscan exp position fuel * (exp >>> (position + zscan exp position fuel)) := by
  intro fuel
  induction fuel with
  | zero => intro pos; simp [zscan]
  | succ fuel ih =>
    intro pos
    rw [zscan]
    by_cases h : exp.testBit pos
    · simp [h]
    · simp only [h, if_false, Bool.false_eq_true]
      have h1 := ih (pos + 1)
      have h2 := shiftRight_eq_two_mul (show exp.testBit pos = false by simpa using h)
      have h3 : pos + (zscan exp (pos + 1) fuel + 1) = pos + 1 + zscan exp (pos + 1) fuel := by
        omega
      rw [h3, pow_succ, h2, h1]
      ring

theorem zscan_le {exp : ℕ} : ∀ fuel position k, k < fuel →
    exp.testBit (position + k) = true → zscan exp position fuel ≤ k := by
  intro fuel
  induction fuel with
  | zero => intro pos k hk; omega
  | succ fuel ih =>
    intro pos k hk hbit
    rw [zscan]
    by_cases h : exp.testBit pos
    · simp [h]
    · simp only [h, if_false, Bool.false_eq_true]
      cases k with
      | zero =>
        rw [Nat.add_zero] at hbit
        rw [hbit] at h
        simp at h
      | succ k =>
        have hb2 : exp.testBit (pos + 1 + k) = true := by
          have he : pos + 1 + k = pos + (k + 1) := by omega
          rw [he]
          exact hbit
        have := ih (pos + 1) k (by omega) hb2
        omega

theorem zscan_stop {exp : ℕ} : ∀ fuel position, zscan exp position fuel < fuel →
    exp.testBit (position + zscan exp position fuel) = true := by
  intro fuel
  induction fuel with
  | zero => intro pos h; omega
  | succ fuel ih =>
    intro pos h
    rw [zscan] at h ⊢
    by_cases hb : exp.testBit pos
    · simp [hb]
    · simp only [hb, if_false, Bool.false_eq_true] at h ⊢
      have h2 := ih (pos + 1) (by omega)
      have he : pos + (zscan exp (pos + 1) fuel + 1) = pos + 1 + zscan exp (pos + 1) fuel := by
        omega
      rw [he]
      exact h2

theorem zscan_pos {exp position fuel : ℕ} (hf : 1 ≤ fuel)
    (h : exp.testBit position = false) : 1 ≤ zscan exp position fuel := by
  cases fuel with
  | zero => omega
  | succ fuel =>
    rw [zscan]
    simp [h]

theorem zscan_lt_bitLen {exp position : ℕ} (hp : position < bitLen exp)
    (h : exp.testBit position = false) :
    position + zscan exp position (bitLen exp - position) < bitLen exp := by
  have hne : exp ≠ 0 := by
    intro h0
    subst h0
    simp [bitLen, bitLenAux] at hp
  have hmsb := testBit_msb hne
  have hlt : position < bitLen exp - 1 := by
    rcases Nat.lt_or_ge position (bitLen exp - 1) with h1 | h1
    · exact h1
    · have he : position = bitLen exp - 1 := by omega
      rw [he, hmsb] at h
      simp at h
  have hz := zscan_le (bitLen exp - position) position (bitLen exp - 1 - position)
    (by omega)
    (by
      have he : position + (bitLen exp - 1 - position) = bitLen exp - 1 := by omega
      rw [he]
      exact hmsb)
  omega

theorem zscan_stop_bit {exp position : ℕ} (hp : position < bitLen exp)
    (h : exp.testBit position = false) :
    exp.testBit (position + zscan exp position (bitLen exp - position)) = true := by
  apply zscan_stop
  have := zscan_lt_bitLen hp h
  omega

/-! ### CLNW scan-loop lemmas -/

theorem clnwLoop_of_bitLen_le {exp d position fuel : ℕ} (h : bitLen exp ≤ position) :
    clnwLoop exp d position fuel = some [] := by
  cases fuel with
  | zero => rw [clnwLoop, if_neg (by omega)]
  | succ fuel => rw [clnwLoop, if_neg (by omega)]

/-- Each outer iteration advances `position` by at least one bit (the
nonzero scan by exactly `d ≥ 1`, the zero scan by `zscan ... ≥ 1`), so
the loop exits within any fuel covering the remaining bit positions. -/
theorem clnwLoop_some {exp d : ℕ} (hd : 1 ≤ d) :
    ∀ fuel position, bitLen exp ≤ position + fuel →
      ∃ ws, clnwLoop exp d position fuel = some ws := by
  intro fuel
  induction fuel with
  | zero =>
    intro pos h
    exact ⟨[], clnwLoop_of_bitLen_le (by omega)⟩
  | succ fuel ih =>
    intro pos h
    by_cases hpos : pos < bitLen exp
    · rw [clnwLoop, if_pos hpos]
      by_cases hbit : exp.testBit pos
      · obtain ⟨ws, hws⟩ := ih (pos + d) (by omega)
        rw [if_pos hbit, hws]
        exact ⟨_, rfl⟩
      · have hb : exp.testBit pos = false := by simpa using hbit
        have hz : 1 ≤ zscan exp pos (bitLen exp - pos) := zscan_pos (by omega) hb
        obtain ⟨ws, hws⟩ := ih (pos + zscan exp pos (bitLen exp - pos)) (by omega)
        rw [if_neg hbit, hws]
        exact ⟨_, rfl⟩
    · exact ⟨[], clnwLoop_of_bitLen_le (by omega)⟩

theorem clnwLoop_fuel_irrel {exp d : ℕ} (hd : 1 ≤ d) :
    ∀ f1 f2 position, bitLen exp ≤ position + f1 → bitLen exp ≤ position + f2 →
      clnwLoop exp d position f1 = clnwLoop exp d position f2 := by
  intro f1
  induction f1 with
  | zero =>
    intro f2 pos h1 h2
    rw [clnwLoop_of_bitLen_le (by omega), clnwLoop_of_bitLen_le (by omega)]
  | succ f1 ih =>
    intro f2 pos h1 h2
    by_cases hpos : pos < bitLen exp
    · cases f2 with
      | zero => omega
      | succ f2 =>
        rw [clnwLoop, clnwLoop, if_pos hpos, if_pos hpos]
        by_cases hbit : exp.testBit pos
        · rw [if_pos hbit, if_pos hbit, ih f2 (pos + d) (by omega) (by omega)]
        · have hb : exp.testBit pos = false := by simpa using hbit
          have hz : 1 ≤ zscan exp pos (bitLen exp - pos) := zscan_pos (by omega) hb
          rw [if_neg hbit, if_neg hbit,
            ih f2 (pos + zscan exp pos (bitLen exp - pos)) (by omega) (by omega)]
    · rw [clnwLoop_of_bitLen_le (by omega), clnwLoop_of_bitLen_le (by omega)]

/-- The window list emitted from `position` recombines to the bits of
`exp` at and above `position`. -/
theorem clnwLoop_windowsVal {exp d : ℕ} :
    ∀ fuel position ws, clnwLoop exp d position fuel = some ws →
      windowsVal ws = exp >>> position := by
  intro fuel
  induction fuel with
  | zero =>
    intro pos ws h
    by_cases hpos : pos < bitLen exp
    · rw [clnwLoop, if_pos hpos] at h
      exact absurd h (by simp)
    · rw [clnwLoop, if_neg hpos] at h
      obtain rfl : ([] : List Window) = ws := Option.some.inj h
      rw [windowsVal, shiftRight_eq_zero_of_bitLen_le (by omega)]
  | succ fuel ih =>
    intro pos ws h
    by_cases hpos : pos < bitLen exp
    · rw [clnwLoop, if_pos hpos] at h
      by_cases hbit : exp.testBit pos
      · rw [if_pos hbit] at h
        cases hrec : clnwLoop exp d (pos + d) fuel with
        | none => rw [hrec] at h; exact absurd h (by simp)
        | some rest =>
          rw [hrec] at h
          obtain rfl : _ :: rest = ws := Option.some.inj (by simpa using h)
          rw [windowsVal, ih (pos + d) rest hrec]
          show ((exp >>> pos) &&& ((1 <<< d) - 1)) + 2 ^ d * (exp >>> (pos + d)) = exp >>> pos
          rw [Nat.one_shiftLeft, Nat.and_pow_two_sub_one_eq_mod, Nat.shiftRight_add,
            Nat.shiftRight_eq_div_pow (exp >>> pos) d]
          exact Nat.mod_add_div (exp >>> pos) (2 ^ d)
      · rw [if_neg hbit] at h
        cases hrec : clnwLoop exp d (pos + zscan exp pos (bitLen exp - pos)) fuel with
        | none => rw [hrec] at h; exact absurd h (by simp)
        | some rest =>
          rw [hrec] at h
          obtain rfl : _ :: rest = ws := Option.some.inj (by simpa using h)
          rw [windowsVal, ih _ rest hrec]
          show 0 + 2 ^ zscan exp pos (bitLen exp - pos) *
              (exp >>> (pos + zscan exp pos (bitLen exp - pos))) = exp >>> pos
          rw [Nat.zero_add]
          exact (zscan_shift exp (bitLen exp - pos) pos).symm
    · rw [clnwLoop, if_neg hpos] at h
      obtain rfl : ([] : List Window) = ws := Option.some.inj h
      rw [windowsVal, shiftRight_eq_zero_of_bitLen_le (by omega)]

/-- The emitted window lengths cover all bits from the scan position up
to `bitLen exp`, overshooting by fewer than `d` bits (the most
significant nonzero window may run past the top bit). -/
theorem clnwLoop_sumLens {exp d : ℕ} :
    ∀ fuel position ws, clnwLoop exp d position fuel = some ws →
      position < bitLen exp →
      bitLen exp ≤ position + sumLens ws ∧ position + sumLens ws < bitLen exp + d := by
  intro fuel
  induction fuel with
  | zero =>
    intro pos ws h hpos
    rw [clnwLoop, if_pos hpos] at h
    exact absurd h (by simp)
  | succ fuel ih =>
    intro pos ws h hpos
    rw [clnwLoop, if_pos hpos] at h
    by_cases hbit : exp.testBit pos
    · rw [if_pos hbit] at h
      cases hrec : clnwLoop exp d (pos + d) fuel with
      | none => rw [hrec] at h; exact absurd h (by simp)
      | some rest =>
        rw [hrec] at h
        obtain rfl : _ :: rest = ws := Option.some.inj (by simpa using h)
        rw [sumLens]
        dsimp only
        by_cases hnext : pos + d < bitLen exp
        · have := ih (pos + d) rest hrec hnext
          omega
        · have : rest = [] := by
            have h2 := @clnwLoop_of_bitLen_le exp d (pos + d) fuel (by omega)
            rw [h2] at hrec
            exact (Option.some.inj hrec).symm
          subst this
          rw [sumLens]
          omega
    · rw [if_neg hbit] at h
      have hb : exp.testBit pos = false := by simpa using hbit
      have hzlt := zscan_lt_bitLen hpos hb
      cases hrec : clnwLoop exp d (pos + zscan exp pos (bitLen exp - pos)) fuel with
      | none => rw [hrec] at h; exact absurd h (by simp)
      | some rest =>
        rw [hrec] at h
        obtain rfl : _ :: rest = ws := Option.some.inj (by simpa using h)
        rw [sumLens]
        dsimp only
        have := ih _ rest hrec hzlt
        omega

/-- Shape of each emitted window: a zero window has positive length; a
window with nonzero value is a nonzero-word window, so its length is
exactly `d`, its low bit (the bit that triggered the nonzero state) is
set, and its value fits its length. -/
theorem clnwLoop_shape {exp d : ℕ} (hd : 1 ≤ d) :
    ∀ fuel position ws, clnwLoop exp d position fuel = some ws →
      ∀ w ∈ ws, (w.value = 0 → 1 ≤ w.length) ∧
        (w.value ≠ 0 → w.length = d ∧ w.value % 2 = 1 ∧ w.value < 2 ^ w.length) := by
  intro fuel
  induction fuel with
  | zero =>
    intro pos ws h w hw
    by_cases hpos : pos < bitLen exp
    · rw [clnwLoop, if_pos hpos] at h
      exact absurd h (by simp)
    · rw [clnwLoop, if_neg hpos] at h
      obtain rfl : ([] : List Window) = ws := Option.some.inj h
      simp at hw
  | succ fuel ih =>
    intro pos ws h w hw
    by_cases hpos : pos < bitLen exp
    · rw [clnwLoop, if_pos hpos] at h
      by_cases hbit : exp.testBit pos
      · rw [if_pos hbit] at h
        cases hrec : clnwLoop exp d (pos + d) fuel with
        | none => rw [hrec] at h; exact absurd h (by simp)
        | some rest =>
          rw [hrec] at h
          obtain rfl : _ :: rest = ws := Option.some.inj (by simpa using h)
          rcases List.mem_cons.mp hw with rfl | hmem
          · have hval : (exp >>> pos) &&& ((1 <<< d) - 1) = (exp >>> pos) % 2 ^ d := by
              rw [Nat.one_shiftLeft, Nat.and_pow_two_sub_one_eq_mod]
            have hodd : ((exp >>> pos) &&& ((1 <<< d) - 1)) % 2 = 1 := by
              rw [hval, Nat.mod_mod_of_dvd _ (dvd_pow_self 2 (by omega : d ≠ 0)),
                shiftRight_mod_two, if_pos hbit]
            refine ⟨fun h0 => ?_, fun _ => ⟨rfl, hodd, ?_⟩⟩
            · rw [show ({ value := (exp >>> pos) &&& ((1 <<< d) - 1), length := d } :
                  Window).value = (exp >>> pos) &&& ((1 <<< d) - 1) from rfl] at h0
              rw [h0] at hodd
              simp at hodd
            · show (exp >>> pos) &&& ((1 <<< d) - 1) < 2 ^ d
              rw [hval]
              exact Nat.mod_lt _ (Nat.two_pow_pos d)
          · exact ih (pos + d) rest hrec w hmem
      · rw [if_neg hbit] at h
        have hb : exp.testBit pos = false := by simpa using hbit
        cases hrec : clnwLoop exp d (pos + zscan exp pos (bitLen exp - pos)) fuel with
        | none => rw [hrec] at h; exact absurd h (by simp)
        | some rest =>
          rw [hrec] at h
          obtain rfl : _ :: rest = ws := Option.some.inj (by simpa using h)
          rcases List.mem_cons.mp hw with rfl | hmem
          · refine ⟨fun _ => ?_, fun h0 => absurd rfl h0⟩
            exact zscan_pos (by omega) hb
          · exact ih _ rest hrec w hmem
    · rw [clnwLoop, if_neg hpos] at h
      obtain rfl : ([] : List Window) = ws := Option.some.inj h
      simp at hw

/-- At a set bit the loop emits a nonzero-word window first: the head of
the remaining scan is a window of length `d` with odd value. -/
theorem clnwLoop_head_nw {exp d position fuel : ℕ} {ws : List Window} (hd : 1 ≤ d)
    (h : clnwLoop exp d position fuel = some ws) (hpos : position < bitLen exp)
    (hbit : exp.testBit position = true) :
    ∃ v rest, ws = Window.mk v d :: rest ∧ v % 2 = 1 := by
  cases fuel with
  | zero =>
    rw [clnwLoop, if_pos hpos] at h
    exact absurd h (by simp)
  | succ fuel =>
    rw [clnwLoop, if_pos hpos, if_pos hbit] at h
    cases hrec : clnwLoop exp d (position + d) fuel with
    | none => rw [hrec] at h; exact absurd h (by simp)
    | some rest =>
      rw [hrec] at h
      obtain rfl : _ :: rest = ws := Option.some.inj (by simpa using h)
      refine ⟨(exp >>> position) &&& ((1 <<< d) - 1), rest, rfl, ?_⟩
      rw [Nat.one_shiftLeft, Nat.and_pow_two_sub_one_eq_mod,
        Nat.mod_mod_of_dvd _ (dvd_pow_self 2 (by omega : d ≠ 0)),
        shiftRight_mod_two, if_pos hbit]

/-- After a zero window the scan sits on a set bit, so the next emitted
window is a nonzero window; hence zero windows never pair up and never
end the sequence. -/
theorem clnwLoop_zeroFollowed {exp d : ℕ} (hd : 1 ≤ d) :
    ∀ fuel position ws, clnwLoop exp d position fuel = some ws →
      zeroWindowsFollowed ws = true := by
  intro fuel
  induction fuel with
  | zero =>
    intro pos ws h
    by_cases hpos : pos < bitLen exp
    · rw [clnwLoop, if_pos hpos] at h
      exact absurd h (by simp)
    · rw [clnwLoop, if_neg hpos] at h
      obtain rfl : ([] : List Window) = ws := Option.some.inj h
      rfl
  | succ fuel ih =>
    intro pos ws h
    by_cases hpos : pos < bitLen exp
    · rw [clnwLoop, if_pos hpos] at h
      by_cases hbit : exp.testBit pos
      · rw [if_pos hbit] at h
        cases hrec : clnwLoop exp d (pos + d) fuel with
        | none => rw [hrec] at h; exact absurd h (by simp)
        | some rest =>
          rw [hrec] at h
          obtain rfl : _ :: rest = ws := Option.some.inj (by simpa using h)
          have hodd : ((exp >>> pos) &&& ((1 <<< d) - 1)) % 2 = 1 := by
            rw [Nat.one_shiftLeft, Nat.and_pow_two_sub_one_eq_mod,
              Nat.mod_mod_of_dvd _ (dvd_pow_self 2 (by omega : d ≠ 0)),
              shiftRight_mod_two, if_pos hbit]
          have hne : ((exp >>> pos) &&& ((1 <<< d) - 1)) ≠ 0 := by
            intro h0
            rw [h0] at hodd
            simp at hodd
          have htail := ih (pos + d) rest hrec
          cases rest with
          | nil => simpa [zeroWindowsFollowed] using hne
          | cons w2 rest2 =>
            rw [zeroWindowsFollowed]
            simp only [htail, Bool.and_true, Bool.or_eq_true, bne_iff_ne, ne_eq]
            left
            exact hne
      · rw [if_neg hbit] at h
        have hb : exp.testBit pos = false := by simpa using hbit
        cases hrec : clnwLoop exp d (pos + zscan exp pos (bitLen exp - pos)) fuel with
        | none => rw [hrec] at h; exact absurd h (by simp)
        | some rest =>
          rw [hrec] at h
          obtain rfl : _ :: rest = ws := Option.some.inj (by simpa using h)
          have hzlt := zscan_lt_bitLen hpos hb
          have hzbit := zscan_stop_bit hpos hb
          obtain ⟨v, rest2, rfl, hvodd⟩ := clnwLoop_head_nw hd hrec hzlt hzbit
          have hvne : v ≠ 0 := by
            intro h0
            rw [h0] at hvodd
            simp at hvodd
          have htail := ih _ _ hrec
          rw [zeroWindowsFollowed]
          simp only [htail, Bool.and_true, Bool.or_eq_true, bne_iff_ne, ne_eq]
          right
          exact hvne
    · rw [clnwLoop, if_neg hpos] at h
      obtain rfl : ([] : List Window) = ws := Option.some.inj h
      rfl

/-- With `1 ≤ d ≤ bitLen exp` the CLNW partitioner does not raise: the
scan loop finishes within `bitLen exp` iterations and the result is the
emitted window list paired with the running maximum length. -/
theorem partition_window_clnw_ok {exp d : ℕ} (hd : 1 ≤ d) (hdL : d ≤ bitLen exp) :
    ∃ ws, clnwLoop exp d 0 (bitLen exp) = some ws ∧
      partition_window_clnw exp d = Except.ok (ws, maxLens ws) := by
  obtain ⟨ws, hws⟩ := @clnwLoop_some exp d hd (bitLen exp) 0 (by omega)
  refine ⟨ws, hws, ?_⟩
  rw [partition_window_clnw, if_neg (by omega), hws]

theorem clnwLoop_ne_nil {exp d fuel : ℕ} {ws : List Window}
    (h : clnwLoop exp d 0 fuel = some ws) (hL : 0 < bitLen exp) : ws ≠ [] := by
  cases fuel with
  | zero =>
    rw [clnwLoop, if_pos hL] at h
    exact absurd h (by simp)
  | succ fuel =>
    rw [clnwLoop, if_pos hL] at h
    by_cases hbit : exp.testBit 0
    · rw [if_pos hbit] at h
      cases hrec : clnwLoop exp d (0 + d) fuel with
      | none => rw [hrec] at h; exact absurd h (by simp)
      | some rest =>
        rw [hrec] at h
        obtain rfl : _ :: rest = ws := Option.some.inj (by simpa using h)
        simp
    · rw [if_neg hbit] at h
      cases hrec : clnwLoop exp d (0 + zscan exp 0 (bitLen exp - 0)) fuel with
      | none => rw [hrec] at h; exact absurd h (by simp)
      | some rest =>
        rw [hrec] at h
        obtain rfl : _ :: rest = ws := Option.some.inj (by simpa using h)
        simp

/-! ### Window-list helper lemmas -/

theorem sumLens_append : ∀ l1 l2 : List Window, sumLens (l1 ++ l2) = sumLens l1 + sumLens l2 := by
  intro l1 l2
  induction l1 with
  | nil => simp [sumLens]
  | cons w l ih => rw [List.cons_append, sumLens, sumLens, ih]; omega

theorem sumLens_reverse : ∀ l : List Window, sumLens l.reverse = sumLens l := by
  intro l
  induction l with
  | nil => rfl
  | cons w l ih =>
    rw [List.reverse_cons, sumLens_append, sumLens, sumLens, sumLens, ih]
    omega

theorem msbVal_concat : ∀ (l : List Window) (w : Window),
    msbVal (l ++ [w]) = msbVal l * 2 ^ w.length + w.value := by
  intro l w
  induction l with
  | nil => simp [msbVal, sumLens]
  | cons u l ih =>
    rw [List.cons_append, msbVal, msbVal, ih, sumLens_append, sumLens, sumLens, pow_add]
    ring

theorem msbVal_reverse : ∀ l : List Window, msbVal l.reverse = windowsVal l := by
  intro l
  induction l with
  | nil => rfl
  | cons w l ih =>
    rw [List.reverse_cons, msbVal_concat, ih, windowsVal]
    ring

theorem windowsVal_concat : ∀ (l : List Window) (w : Window),
    windowsVal (l ++ [w]) = windowsVal l + 2 ^ sumLens l * w.value := by
  intro l w
  induction l with
  | nil => simp [windowsVal, sumLens]
  | cons u l ih =>
    rw [List.cons_append, windowsVal, windowsVal, ih, sumLens, pow_add]
    ring

theorem length_le_maxLens : ∀ (l : List Window) (w : Window), w ∈ l →
    w.length ≤ maxLens l := by
  intro l
  induction l with
  | nil => intro w hw; simp at hw
  | cons u l ih =>
    intro w hw
    rcases List.mem_cons.mp hw with rfl | hmem
    · rw [maxLens]; exact le_max_left _ _
    · rw [maxLens]; exact le_trans (ih w hmem) (le_max_right _ _)

/-! ### Modular-arithmetic helper lemmas -/

theorem mod_mul_mod_both (a b n : ℕ) : ((a % n) * (b % n)) % n = (a * b) % n :=
  (Nat.mul_mod a b n).symm

theorem pow_mod_mul_mod (a k c n : ℕ) : ((a % n) ^ k * c) % n = (a ^ k * c) % n := by
  conv_lhs => rw [Nat.mul_mod, ← Nat.pow_mod, ← Nat.mul_mod]

/-! ### Fixed-width partitioner lemmas -/

theorem partition_window_same_width_ok {exp w : ℕ} (h : w < bitLen exp) :
    partition_window_same_width exp w =
      Except.ok ((List.range ((bitLen exp + w - 1) / w)).map fun i =>
        Window.mk (((1 <<< w) - 1) &&& (exp >>> (i * w))) w, w) := by
  rw [partition_window_same_width, if_neg (by omega)]

theorem ceil_div_lower {L w : ℕ} (hw : 1 ≤ w) (hL : 1 ≤ L) :
    L ≤ (L + w - 1) / w * w := by
  have hq : (L + w - 1) / w = (L - 1) / w + 1 := by
    have he : L + w - 1 = (L - 1) + w := by omega
    rw [he, Nat.add_div_right _ (by omega)]
  rw [hq, Nat.add_mul, Nat.one_mul]
  have h3 := Nat.div_add_mod' (L - 1) w
  have h4 : (L - 1) % w < w := Nat.mod_lt _ (by omega)
  omega

theorem ceil_div_upper {L w : ℕ} (hw : 1 ≤ w) :
    (L + w - 1) / w * w < L + w := by
  have h1 := Nat.div_mul_le_self (L + w - 1) w
  omega

/-- The fixed-width windows are the base-`2 ^ w` digits of `exp`, so
recombining `n` of them yields `exp` modulo `2 ^ (n * w)`. -/
theorem same_width_windowsVal (w : ℕ) : ∀ n exp,
    windowsVal ((List.range n).map fun i =>
      Window.mk (((1 <<< w) - 1) &&& (exp >>> (i * w))) w) = exp % 2 ^ (n * w) := by
  intro n
  induction n with
  | zero =>
    intro exp
    simp [windowsVal, Nat.mod_one]
  | succ n ih =>
    intro exp
    rw [List.range_succ_eq_map, List.map_cons, List.map_map, windowsVal]
    have hcomp : ((fun i => Window.mk (((1 <<< w) - 1) &&& (exp >>> (i * w))) w) ∘ Nat.succ)
        = fun i => Window.mk (((1 <<< w) - 1) &&& ((exp >>> w) >>> (i * w))) w := by
      funext i
      simp only [Function.comp_apply, Nat.succ_eq_add_one]
      rw [← Nat.shiftRight_add]
      have he : w + i * w = (i + 1) * w := by ring
      rw [he]
    rw [hcomp, ih (exp >>> w)]
    dsimp only
    rw [Nat.zero_mul, Nat.shiftRight_zero, Nat.one_shiftLeft, Nat.and_comm,
      Nat.and_pow_two_sub_one_eq_mod, Nat.shiftRight_eq_div_pow]
    have he2 : (n + 1) * w = w + n * w := by ring
    rw [he2, pow_add]
    exact Nat.mod_mul.symm

/-! ### Driver-loop lemmas -/

theorem sqIter_eq (mod : ℕ) : ∀ n y, 1 ≤ n → sqIter mod n y = y ^ 2 ^ n % mod := by
  intro n
  induction n with
  | zero => intro y h; omega
  | succ n ih =>
    intro y _
    cases n with
    | zero =>
      show (y * y) % mod = y ^ 2 ^ 1 % mod
      rw [pow_one, pow_two]
    | succ m =>
      rw [sqIter, ih ((y * y) % mod) (by omega), ← pow_two, ← Nat.pow_mod, ← pow_mul,
        ← pow_succ']

theorem getElem?_precomputed {x mod m v : ℕ} (hv : v < 2 ^ m) :
    (precomputed_powers_of_x x mod m)[v]? = some (x ^ v % mod) := by
  rw [precomputed_powers_of_x, List.getElem?_map, List.getElem?_range hv]
  rfl

/-- Invariant of the MSB-first replay: starting from accumulator `y`,
processing the window list `l` yields `y ^ 2 ^ (total length of l)`
times `x` to the recombined value of `l`, all modulo `mod`. -/
theorem pow_window_loop_eq {x mod m : ℕ} (hmod : 1 ≤ mod) :
    ∀ l y, y < mod → (∀ w ∈ l, w.value < 2 ^ m ∧ 1 ≤ w.length) →
      pow_window_loop mod (precomputed_powers_of_x x mod m) l y =
        some ((y ^ 2 ^ sumLens l * x ^ msbVal l) % mod) := by
  intro l
  induction l with
  | nil =>
    intro y hy _
    rw [pow_window_loop, sumLens, msbVal]
    rw [pow_zero, pow_one, pow_zero, mul_one, Nat.mod_eq_of_lt hy]
  | cons w l ih =>
    intro y hy hall
    have hw := hall w (List.mem_cons_self w l)
    have htail : ∀ u ∈ l, u.value < 2 ^ m ∧ 1 ≤ u.length := fun u hu =>
      hall u (List.mem_cons_of_mem w hu)
    rw [pow_window_loop]
    have hy1 : sqIter mod w.length y = y ^ 2 ^ w.length % mod :=
      sqIter_eq mod w.length y hw.2
    by_cases hv : w.value ≠ 0
    · rw [if_pos hv, getElem?_precomputed hw.1]
      dsimp only
      rw [ih ((sqIter mod w.length y * (x ^ w.value % mod)) % mod)
        (Nat.mod_lt _ (by omega)) htail]
      rw [hy1, mod_mul_mod_both, sumLens, msbVal]
      rw [pow_mod_mul_mod]
      have halg : (y ^ 2 ^ w.length * x ^ w.value) ^ 2 ^ sumLens l * x ^ msbVal l =
          y ^ 2 ^ (w.length + sumLens l) *
            x ^ (w.value * 2 ^ sumLens l + msbVal l) := by
        rw [mul_pow, ← pow_mul, ← pow_mul, ← pow_add, pow_add 2, mul_comm (w.value)]
        ring
      rw [halg]
    · rw [if_neg hv]
      have hv0 : w.value = 0 := by omega
      rw [ih (sqIter mod w.length y) (by rw [hy1]; exact Nat.mod_lt _ (by omega)) htail]
      rw [hy1, sumLens, msbVal, hv0]
      rw [pow_mod_mul_mod]
      have halg : (y ^ 2 ^ w.length) ^ 2 ^ sumLens l * x ^ msbVal l =
          y ^ 2 ^ (w.length + sumLens l) * x ^ (0 * 2 ^ sumLens l + msbVal l) := by
        rw [← pow_mul, ← pow_add, pow_add 2, Nat.zero_mul, Nat.zero_add]
      rw [halg]

/-- Main driver lemma: when the partitioner hands `pow_window` a
non-empty window list whose values fit the reported maximum length and
whose window lengths are positive, the driver returns
`x ^ (recombined exponent) % mod`. -/
theorem pow_window_eq {x exp mod : ℕ}
    {partition : ℕ → Except PartitionError (List Window × ℕ)}
    {ws : List Window} {m : ℕ} (hmod : 1 ≤ mod)
    (hpart : partition exp = Except.ok (ws, m)) (hne : ws ≠ [])
    (hall : ∀ w ∈ ws, w.value < 2 ^ m ∧ 1 ≤ w.length) :
    pow_window x exp mod partition = some (x ^ windowsVal ws % mod) := by
  rcases List.eq_nil_or_concat ws with rfl | ⟨body, wl, rfl⟩
  · exact absurd rfl hne
  · rw [List.concat_eq_append] at *
    rw [pow_window, hpart]
    have hwl := hall wl (by simp)
    have hbody : ∀ w ∈ body.reverse, w.value < 2 ^ m ∧ 1 ≤ w.length := fun w hw =>
      hall w (by
        rcases List.mem_reverse.mp hw with hmem
        exact List.mem_append.mpr (Or.inl hmem))
    dsimp only
    rw [List.getLast?_concat]
    dsimp only
    rw [getElem?_precomputed hwl.1]
    dsimp only
    rw [List.dropLast_concat]
    rw [pow_window_loop_eq hmod body.reverse (x ^ wl.value % mod)
      (Nat.mod_lt _ (by omega)) hbody]
    rw [sumLens_reverse, msbVal_reverse, pow_mod_mul_mod, windowsVal_concat]
    have halg : (x ^ wl.value) ^ 2 ^ sumLens body * x ^ windowsVal body =
        x ^ (windowsVal body + 2 ^ sumLens body * wl.value) := by
      rw [← pow_mul, ← pow_add]
      ring_nf
    rw [halg]

/-! ### Baseline-algorithm lemmas -/

theorem pow_step_by_step_eq {x mod : ℕ} : ∀ e, 1 ≤ e →
    pow_step_by_step x e mod = x ^ e % mod := by
  intro e
  induction e with
  | zero => omega
  | succ e ih =>
    intro _
    cases e with
    | zero =>
      show (1 * x) % mod = x ^ 1 % mod
      rw [Nat.one_mul, pow_one]
    | succ e2 =>
      rw [pow_step_by_step, ih (by omega), Nat.mod_mul_mod, ← pow_succ]

theorem pow_binary_go_zero (mod : ℕ) : ∀ fuel x y, pow_binary_go mod fuel x 0 y = y := by
  intro fuel x y
  cases fuel with
  | zero => rfl
  | succ fuel => rw [pow_binary_go, if_pos rfl]

theorem pow_binary_go_eq (mod : ℕ) : ∀ fuel x e y, 1 ≤ e → e ≤ fuel →
    pow_binary_go mod fuel x e y = (y * x ^ e) % mod := by
  intro fuel
  induction fuel with
  | zero => intro x e y he hef; omega
  | succ fuel ih =>
    intro x e y he hef
    rw [pow_binary_go, if_neg (by omega)]
    have he2 : ((if e % 2 ≠ 0 then e - 1 else e) >>> 1) = e / 2 := by
      rw [Nat.shiftRight_succ, Nat.shiftRight_zero]
      by_cases hpar : e % 2 ≠ 0
      · rw [if_pos hpar]
        omega
      · rw [if_neg hpar]
    rw [he2]
    by_cases hone : e = 1
    · subst hone
      rw [show (1 : ℕ) / 2 = 0 from rfl, pow_binary_go_zero]
      rw [if_pos (by omega)]
      rw [pow_one]
    · have he3 : 2 ≤ e := by omega
      rw [ih ((x * x) % mod) (e / 2) _ (by omega) (by omega)]
      by_cases hpar : e % 2 ≠ 0
      · rw [if_pos hpar, Nat.mul_mod, Nat.mod_mod, ← Nat.pow_mod, ← Nat.mul_mod]
        have halg : y * x * (x * x) ^ (e / 2) = y * x ^ (2 * (e / 2) + 1) := by
          rw [← pow_two, ← pow_mul, pow_succ]
          ring
        rw [halg, show 2 * (e / 2) + 1 = e by omega]
      · rw [if_neg hpar, Nat.mul_mod, ← Nat.pow_mod, ← Nat.mul_mod]
        have halg : y * (x * x) ^ (e / 2) = y * x ^ (2 * (e / 2)) := by
          rw [← pow_two, ← pow_mul]
        rw [halg, show 2 * (e / 2) = e by omega]

theorem pow_binary_eq {x mod : ℕ} (e : ℕ) (he : 1 ≤ e) :
    pow_binary x e mod = x ^ e % mod := by
  rw [pow_binary, pow_binary_go_eq mod e x e 1 he le_rfl, Nat.one_mul]

/-! ### Assembly lemmas per partitioner -/

theorem bitLen_zero : bitLen 0 = 0 := rfl

theorem partition_window_same_width_err {exp w : ℕ} (h : bitLen exp ≤ w) :
    partition_window_same_width exp w = Except.error PartitionError.invalidParameter := by
  rw [partition_window_same_width, if_pos h]

theorem partition_window_clnw_err {exp d : ℕ} (h : bitLen exp < d) :
    partition_window_clnw exp d = Except.error PartitionError.invalidParameter := by
  rw [partition_window_clnw, if_pos h]

theorem pow_window_none_of_error {x exp mod : ℕ}
    {partition : ℕ → Except PartitionError (List Window × ℕ)} {err : PartitionError}
    (h : partition exp = Except.error err) :
    pow_window x exp mod partition = none := by
  rw [pow_window, h]

theorem same_width_window_facts {exp w : ℕ} {u : Window}
    (hu : u ∈ (List.range ((bitLen exp + w - 1) / w)).map fun i =>
      Window.mk (((1 <<< w) - 1) &&& (exp >>> (i * w))) w) :
    u.value < 2 ^ w ∧ u.length = w := by
  obtain ⟨i, hi, rfl⟩ := List.mem_map.mp hu
  refine ⟨?_, rfl⟩
  show ((1 <<< w) - 1) &&& (exp >>> (i * w)) < 2 ^ w
  rw [Nat.one_shiftLeft]
  have h1 : (2 ^ w - 1) &&& (exp >>> (i * w)) ≤ 2 ^ w - 1 := Nat.and_le_left
  have h2 := Nat.two_pow_pos w
  omega

theorem same_width_ws_ne_nil {exp w : ℕ} (hw : 1 ≤ w) (h : w < bitLen exp) :
    ((List.range ((bitLen exp + w - 1) / w)).map fun i =>
      Window.mk (((1 <<< w) - 1) &&& (exp >>> (i * w))) w) ≠ [] := by
  apply List.ne_nil_of_length_pos
  rw [List.length_map, List.length_range]
  have h1 : 1 * w ≤ bitLen exp + w - 1 := by omega
  have h2 := (Nat.le_div_iff_mul_le (by omega : 0 < w)).mpr h1
  omega

theorem same_width_windowsVal_eq {exp w : ℕ} (hw : 1 ≤ w) (h : w < bitLen exp) :
    windowsVal ((List.range ((bitLen exp + w - 1) / w)).map fun i =>
      Window.mk (((1 <<< w) - 1) &&& (exp >>> (i * w))) w) = exp := by
  rw [same_width_windowsVal]
  apply Nat.mod_eq_of_lt
  have h1 : bitLen exp ≤ (bitLen exp + w - 1) / w * w := ceil_div_lower hw (by omega)
  exact lt_of_lt_of_le (lt_two_pow_bitLen exp) (Nat.pow_le_pow_right (by omega) h1)

theorem pow_window_same_width_eq {x exp mod w : ℕ} (hmod : 1 ≤ mod) (hw : 1 ≤ w)
    (h : w < bitLen exp) :
    pow_window_same_width x exp mod w = some (x ^ exp % mod) := by
  have hmain := @pow_window_eq x exp mod (fun e => partition_window_same_width e w) _ _
    hmod (partition_window_same_width_ok h) (same_width_ws_ne_nil hw h)
    (fun u hu => ⟨(same_width_window_facts hu).1, by
      rw [(same_width_window_facts hu).2]; omega⟩)
  rw [same_width_windowsVal_eq hw h] at hmain
  rw [pow_window_same_width]
  exact hmain

theorem clnw_all_facts {exp d : ℕ} (hd : 1 ≤ d) {ws : List Window}
    (h : clnwLoop exp d 0 (bitLen exp) = some ws) :
    ∀ w ∈ ws, w.value < 2 ^ maxLens ws ∧ 1 ≤ w.length := by
  intro w hw
  have hs := clnwLoop_shape hd (bitLen exp) 0 ws h w hw
  have hlen : w.length ≤ maxLens ws := length_le_maxLens ws w hw
  by_cases hv : w.value = 0
  · exact ⟨by rw [hv]; exact Nat.two_pow_pos _, hs.1 hv⟩
  · obtain ⟨hld, _, hlt⟩ := hs.2 hv
    exact ⟨lt_of_lt_of_le hlt (Nat.pow_le_pow_right (by omega) hlen), by omega⟩

theorem pow_window_clnw_eq {x exp mod d : ℕ} (hmod : 1 ≤ mod) (hd : 1 ≤ d)
    (h : d ≤ bitLen exp) :
    pow_window_clnw x exp mod d = some (x ^ exp % mod) := by
  obtain ⟨ws, hws, hpart⟩ := partition_window_clnw_ok hd h
  have hmain := @pow_window_eq x exp mod (fun e => partition_window_clnw e d) ws (maxLens ws)
    hmod hpart (clnwLoop_ne_nil hws (by omega)) (clnw_all_facts hd hws)
  rw [clnwLoop_windowsVal (bitLen exp) 0 ws hws, Nat.shiftRight_zero] at hmain
  rw [pow_window_clnw]
  exact hmain

/-! ### Indexing-safety lemmas (no constraint on the modulus) -/

theorem length_precomputed (x mod m : ℕ) :
    (precomputed_powers_of_x x mod m).length = 2 ^ m := by
  rw [precomputed_powers_of_x, List.length_map, List.length_range]

theorem pow_window_loop_isSome {mod : ℕ} {table : List ℕ} :
    ∀ l y, (∀ w ∈ l, w.value < table.length) →
      (pow_window_loop mod table l y).isSome = true := by
  intro l
  induction l with
  | nil => intro y _; rfl
  | cons w l ih =>
    intro y hall
    have htail : ∀ u ∈ l, u.value < table.length := fun u hu =>
      hall u (List.mem_cons_of_mem w hu)
    rw [pow_window_loop]
    by_cases hv : w.value ≠ 0
    · rw [if_pos hv]
      have hlen := hall w (List.mem_cons_self w l)
      rw [List.getElem?_eq_getElem hlen]
      dsimp only
      exact ih _ htail
    · rw [if_neg hv]
      exact ih _ htail

theorem pow_window_isSome {x exp mod : ℕ}
    {partition : ℕ → Except PartitionError (List Window × ℕ)}
    {ws : List Window} {m : ℕ}
    (hpart : partition exp = Except.ok (ws, m)) (hne : ws ≠ [])
    (hall : ∀ w ∈ ws, w.value < 2 ^ m) :
    (pow_window x exp mod partition).isSome = true := by
  rcases List.eq_nil_or_concat ws with rfl | ⟨body, wl, rfl⟩
  · exact absurd rfl hne
  · rw [List.concat_eq_append] at *
    rw [pow_window, hpart]
    dsimp only
    rw [List.getLast?_concat]
    dsimp only
    have hwl : wl.value < 2 ^ m := hall wl (by simp)
    rw [getElem?_precomputed hwl]
    dsimp only
    rw [List.dropLast_concat]
    apply pow_window_loop_isSome
    intro w hw
    rw [length_precomputed]
    exact hall w (List.mem_append.mpr (Or.inl (List.mem_reverse.mp hw)))

theorem sumLens_map {α : Type} (l : List α) (g : α → ℕ) (p : ℕ) :
    sumLens (l.map fun a => Window.mk (g a) p) = l.length * p := by
  induction l with
  | nil => simp [sumLens]
  | cons a l ih =>
    rw [List.map_cons, sumLens, ih, List.length_cons]
    ring

/-! ### Claim theorems -/

/-- C1: for every base `x`, exponent, modulus `≥ 1`, and valid window
parameters (`1 ≤ wf < bitLen exp` for the fixed-width strategy and
`1 ≤ wc ≤ bitLen exp` for CLNW), `pow_step_by_step`, `pow_binary`,
`pow_window_same_width` and `pow_window_clnw` all return the same value,
namely `x ^ exp % mod` computed by unbounded-precision
exponentiation. -/
theorem C1_all_algorithms_agree (x exp mod wf wc : ℕ) (hmod : 1 ≤ mod)
    (hwf1 : 1 ≤ wf) (hwf2 : wf < bitLen exp) (hwc1 : 1 ≤ wc)
    (hwc2 : wc ≤ bitLen exp) :
    pow_step_by_step x exp mod = x ^ exp % mod ∧
    pow_binary x exp mod = x ^ exp % mod ∧
    pow_window_same_width x exp mod wf = some (x ^ exp % mod) ∧
    pow_window_clnw x exp mod wc = some (x ^ exp % mod) := by
  have hexp : 1 ≤ exp := by
    have h2 : 0 < bitLen exp := by omega
    have h3 := lt_bitLen_iff.mp h2
    rw [pow_zero] at h3
    exact h3
  exact ⟨pow_step_by_step_eq exp hexp, pow_binary_eq exp hexp,
    pow_window_same_width_eq hmod hwf1 hwf2, pow_window_clnw_eq hmod hwc1 hwc2⟩

/-- Witness for C1 at `x = 7`, `exp = 13`, `mod = 5`, fixed width 2,
CLNW nonzero-window size 3 (`bitLen 13 = 4`). -/
theorem C1_witness :
    pow_step_by_step 7 13 5 = 7 ^ 13 % 5 ∧
    pow_binary 7 13 5 = 7 ^ 13 % 5 ∧
    pow_window_same_width 7 13 5 2 = some (7 ^ 13 % 5) ∧
    pow_window_clnw 7 13 5 3 = some (7 ^ 13 % 5) :=
  C1_all_algorithms_agree 7 13 5 2 3 (by decide) (by decide) (by decide) (by decide)
    (by decide)

/-- C2 counterexample: on the repo's own example `exp = 0b11010111`
(= 215) with window size 3, the fixed-width partitioner emits three
windows of length 3, and `9 ≠ bitLen 215 = 8` — the lengths do NOT sum
exactly to the bit length. -/
theorem C2_counterexample :
    sumLens (partWindows (partition_window_same_width 215 3)) = 9 ∧
    bitLen 215 = 8 ∧
    sumLens (partWindows (partition_window_same_width 215 3)) ≠ bitLen 215 := by
  exact ⟨by decide, by decide, by decide⟩

/-- C2 amended: for valid parameters the window lengths of either
partitioner sum to at least `bitLen exp` and to less than
`bitLen exp + p`: the windows cover every exponent bit, but the most
significant window may pad with up to `p - 1` implicit zero bits beyond
the top bit, so the sum can exceed `bitLen exp`. -/
theorem C2_sum_of_lengths (exp p : ℕ) (hp : 1 ≤ p) :
    (p < bitLen exp →
      bitLen exp ≤ sumLens (partWindows (partition_window_same_width exp p)) ∧
      sumLens (partWindows (partition_window_same_width exp p)) < bitLen exp + p) ∧
    (p ≤ bitLen exp →
      bitLen exp ≤ sumLens (partWindows (partition_window_clnw exp p)) ∧
      sumLens (partWindows (partition_window_clnw exp p)) < bitLen exp + p) := by
  constructor
  · intro h
    rw [partition_window_same_width_ok h, partWindows, sumLens_map, List.length_range]
    exact ⟨ceil_div_lower hp (by omega), ceil_div_upper hp⟩
  · intro h
    obtain ⟨ws, hws, hpart⟩ := partition_window_clnw_ok hp h
    rw [hpart, partWindows]
    have hb := clnwLoop_sumLens (bitLen exp) 0 ws hws (by omega)
    omega

/-- Witness for C2 at `exp = 215`, `p = 3` (both partitioners valid). -/
theorem C2_witness :
    (bitLen 215 ≤ sumLens (partWindows (partition_window_same_width 215 3)) ∧
      sumLens (partWindows (partition_window_same_width 215 3)) < bitLen 215 + 3) ∧
    (bitLen 215 ≤ sumLens (partWindows (partition_window_clnw 215 3)) ∧
      sumLens (partWindows (partition_window_clnw 215 3)) < bitLen 215 + 3) :=
  ⟨(C2_sum_of_lengths 215 3 (by decide)).1 (by decide),
   (C2_sum_of_lengths 215 3 (by decide)).2 (by decide)⟩

/-- C3 counterexample: with exponent 0 and modulus 1 the naive and
binary algorithms return the unreduced initial accumulator 1, not
`1 % 1 = 0` as the claim requires. -/
theorem C3_counterexample :
    pow_step_by_step 2 0 1 = 1 ∧ pow_binary 2 0 1 = 1 ∧ (1 : ℕ) % 1 = 0 ∧
    pow_step_by_step 2 0 1 ≠ 1 % 1 := by
  exact ⟨rfl, rfl, rfl, by decide⟩

/-- C3 amended: with exponent 0 the naive and binary algorithms return
the accumulator 1 UNREDUCED (so 1, not `1 % mod`, even when `mod = 1`),
and both windowed algorithms fail for every size parameter (no parameter
is valid for bit-length 0: the partitioners raise, and the `d = 0` CLNW
call fails indexing the empty window list); for `mod = 1` and exponent
`≥ 1` every algorithm does return 0. -/
theorem C3_exponent_zero_and_modulus_one (x mod w d e wf dc : ℕ) (_hmod : 1 ≤ mod)
    (he : 1 ≤ e) (hwf1 : 1 ≤ wf) (hwf2 : wf < bitLen e) (hdc1 : 1 ≤ dc)
    (hdc2 : dc ≤ bitLen e) :
    pow_step_by_step x 0 mod = 1 ∧
    pow_binary x 0 mod = 1 ∧
    pow_window_same_width x 0 mod w = none ∧
    pow_window_clnw x 0 mod d = none ∧
    pow_step_by_step x e 1 = 0 ∧
    pow_binary x e 1 = 0 ∧
    pow_window_same_width x e 1 wf = some 0 ∧
    pow_window_clnw x e 1 dc = some 0 := by
  refine ⟨rfl, rfl, ?_, ?_, ?_, ?_, ?_, ?_⟩
  · rw [pow_window_same_width]
    exact @pow_window_none_of_error x 0 mod (fun u => partition_window_same_width u w)
      PartitionError.invalidParameter
      (partition_window_same_width_err (by rw [bitLen_zero]; omega))
  · by_cases hd : d = 0
    · subst hd
      rfl
    · rw [pow_window_clnw]
      exact @pow_window_none_of_error x 0 mod (fun u => partition_window_clnw u d)
        PartitionError.invalidParameter
        (partition_window_clnw_err (by rw [bitLen_zero]; omega))
  · rw [pow_step_by_step_eq e he, Nat.mod_one]
  · rw [pow_binary_eq e he, Nat.mod_one]
  · rw [pow_window_same_width_eq le_rfl hwf1 hwf2, Nat.mod_one]
  · rw [pow_window_clnw_eq le_rfl hdc1 hdc2, Nat.mod_one]

/-- Witness for C3 at `x = 3`, `mod = 2`, `w = 5`, `d = 4`, `e = 6`
(`bitLen 6 = 3`), fixed width 2, CLNW width 3. -/
theorem C3_witness :
    pow_step_by_step 3 0 2 = 1 ∧
    pow_binary 3 0 2 = 1 ∧
    pow_window_same_width 3 0 2 5 = none ∧
    pow_window_clnw 3 0 2 4 = none ∧
    pow_step_by_step 3 6 1 = 0 ∧
    pow_binary 3 6 1 = 0 ∧
    pow_window_same_width 3 6 1 2 = some 0 ∧
    pow_window_clnw 3 6 1 3 = some 0 :=
  C3_exponent_zero_and_modulus_one 3 2 5 4 6 2 3 (by decide) (by decide) (by decide)
    (by decide) (by decide) (by decide)

/-- C4 counterexample: `partitionCLNW(0b111001010001, 3)` — the repo's
own test vector — has first (least-significant) window value 1 of
length 3, and `2 ^ (3 - 1) ≤ 1` is false: the most-significant bit of a
nonzero CLNW window need not be set. -/
theorem C4_counterexample :
    partWindows (partition_window_clnw 3665 3) =
      [Window.mk 1 3, Window.mk 0 1, Window.mk 5 3, Window.mk 0 2, Window.mk 7 3] ∧
    (1 : ℕ) ≠ 0 ∧ ¬ 2 ^ (3 - 1) ≤ (1 : ℕ) := by
  exact ⟨by decide, by decide, by decide⟩

/-- C4 amended: every nonzero window of the CLNW partitioner has its
LEAST-significant bit set — the triggering 1-bit is the window's low
bit, because the scan runs LSB to MSB — hence an odd value with
`1 ≤ value < 2 ^ length`; the window's top bit may be 0. -/
theorem C4_clnw_nonzero_window_low_bit (exp d : ℕ) (hd : 1 ≤ d)
    (hdL : d ≤ bitLen exp) :
    (partWindows (partition_window_clnw exp d)).all
      (fun w => decide (w.value ≠ 0 → w.value % 2 = 1 ∧ w.value < 2 ^ w.length)) =
      true := by
  obtain ⟨ws, hws, hpart⟩ := partition_window_clnw_ok hd hdL
  rw [hpart, partWindows, List.all_eq_true]
  intro w hw
  rw [decide_eq_true_eq]
  intro hv
  have hs := clnwLoop_shape hd (bitLen exp) 0 ws hws w hw
  exact ⟨(hs.2 hv).2.1, (hs.2 hv).2.2⟩

/-- Witness for C4 at the repo's test vector `exp = 3665`, `d = 3`. -/
theorem C4_witness :
    (partWindows (partition_window_clnw 3665 3)).all
      (fun w => decide (w.value ≠ 0 → w.value % 2 = 1 ∧ w.value < 2 ^ w.length)) =
      true :=
  C4_clnw_nonzero_window_low_bit 3665 3 (by decide) (by decide)

/-- C5: recombining the LSB-first window sequence of either partitioner
— summing each window's value shifted left by the total length of the
windows preceding it — reproduces the exponent exactly, bit for bit. -/
theorem C5_recombination (exp p : ℕ) (hp : 1 ≤ p) :
    (p < bitLen exp →
      windowsVal (partWindows (partition_window_same_width exp p)) = exp) ∧
    (p ≤ bitLen exp →
      windowsVal (partWindows (partition_window_clnw exp p)) = exp) := by
  constructor
  · intro h
    rw [partition_window_same_width_ok h, partWindows, same_width_windowsVal_eq hp h]
  · intro h
    obtain ⟨ws, hws, hpart⟩ := partition_window_clnw_ok hp h
    rw [hpart, partWindows, clnwLoop_windowsVal (bitLen exp) 0 ws hws,
      Nat.shiftRight_zero]

/-- Witness for C5 at `exp = 215`, `p = 3`. -/
theorem C5_witness :
    windowsVal (partWindows (partition_window_same_width 215 3)) = 215 ∧
    windowsVal (partWindows (partition_window_clnw 215 3)) = 215 :=
  ⟨(C5_recombination 215 3 (by decide)).1 (by decide),
   (C5_recombination 215 3 (by decide)).2 (by decide)⟩

/-- C6: the fixed-width partitioner returns exactly
`ceil(bitLen exp / w)` windows, LSB first, window `i` carrying value
`(exp >> (i*w)) & (2^w - 1)` with length `w`; the reported maximum
length is `w`; in particular `partitionFixedWidth(0b11010111, 3)` yields
values `[0b111, 0b010, 0b11]` LSB-first. -/
theorem C6_fixed_width_windows (exp w : ℕ) (_hw1 : 1 ≤ w) (hw2 : w < bitLen exp) :
    (partWindows (partition_window_same_width exp w)).length =
      (bitLen exp + w - 1) / w ∧
    partMax (partition_window_same_width exp w) = w ∧
    (∀ i, i < (bitLen exp + w - 1) / w →
      (partWindows (partition_window_same_width exp w))[i]? =
        some (Window.mk (((1 <<< w) - 1) &&& (exp >>> (i * w))) w)) ∧
    (partWindows (partition_window_same_width 215 3)).map Window.value = [7, 2, 3] := by
  refine ⟨?_, ?_, ?_, by decide⟩
  · rw [partition_window_same_width_ok hw2, partWindows, List.length_map,
      List.length_range]
  · rw [partition_window_same_width_ok hw2, partMax]
  · intro i hi
    rw [partition_window_same_width_ok hw2, partWindows, List.getElem?_map,
      List.getElem?_range hi]
    rfl

/-- Witness for C6 at `exp = 215`, `w = 3`, sampling window index 1. -/
theorem C6_witness :
    (partWindows (partition_window_same_width 215 3)).length = (bitLen 215 + 3 - 1) / 3 ∧
    partMax (partition_window_same_width 215 3) = 3 ∧
    (partWindows (partition_window_same_width 215 3))[1]? =
      some (Window.mk (((1 <<< 3) - 1) &&& (215 >>> (1 * 3))) 3) ∧
    (partWindows (partition_window_same_width 215 3)).map Window.value = [7, 2, 3] := by
  obtain ⟨h1, h2, h3, h4⟩ := C6_fixed_width_windows 215 3 (by decide) (by decide)
  exact ⟨h1, h2, h3 1 (by decide), h4⟩

/-- C7 counterexample: `partitionCLNW(0b111111111111, 2)` yields six
consecutive nonzero windows; the adjacent nonzero pair at the interior
indices 2 and 3 (of 6) refutes the claimed alternation away from the
sequence boundaries. -/
theorem C7_counterexample :
    partWindows (partition_window_clnw 4095 2) =
      [Window.mk 3 2, Window.mk 3 2, Window.mk 3 2, Window.mk 3 2, Window.mk 3 2,
        Window.mk 3 2] ∧
    ((partWindows (partition_window_clnw 4095 2)).getD 2 (Window.mk 0 0)).value ≠ 0 ∧
    ((partWindows (partition_window_clnw 4095 2)).getD 3 (Window.mk 0 0)).value ≠ 0 := by
  exact ⟨by decide, by decide, by decide⟩

/-- C7 amended: every CLNW window with nonzero value has length exactly
`d`; every zero window has positive length; a zero window is always
immediately followed by a nonzero window (so two zero windows are never
adjacent and a zero window is never last) — but two NONZERO windows may
be adjacent anywhere in the sequence. -/
theorem C7_clnw_window_structure (exp d : ℕ) (hd : 1 ≤ d) (hdL : d ≤ bitLen exp) :
    (partWindows (partition_window_clnw exp d)).all
      (fun w => decide ((w.value ≠ 0 → w.length = d) ∧ (w.value = 0 → 1 ≤ w.length))) =
      true ∧
    zeroWindowsFollowed (partWindows (partition_window_clnw exp d)) = true := by
  obtain ⟨ws, hws, hpart⟩ := partition_window_clnw_ok hd hdL
  rw [hpart, partWindows]
  refine ⟨?_, clnwLoop_zeroFollowed hd (bitLen exp) 0 ws hws⟩
  rw [List.all_eq_true]
  intro w hw
  rw [decide_eq_true_eq]
  have hs := clnwLoop_shape hd (bitLen exp) 0 ws hws w hw
  exact ⟨fun hv => (hs.2 hv).1, hs.1⟩

/-- Witness for C7 at `exp = 4095`, `d = 2`. -/
theorem C7_witness :
    (partWindows (partition_window_clnw 4095 2)).all
      (fun w => decide ((w.value ≠ 0 → w.length = 2) ∧ (w.value = 0 → 1 ≤ w.length))) =
      true ∧
    zeroWindowsFollowed (partWindows (partition_window_clnw 4095 2)) = true :=
  C7_clnw_window_structure 4095 2 (by decide) (by decide)

/-- C8: with size parameter `≥ 1`, `partition_window_same_width` raises
`InvalidParameter` exactly when `p ≥ bitLen exp`, and
`partition_window_clnw` exactly when `p > bitLen exp`; on every other
input both partitioners return normally (in particular the CLNW scan
loop terminates and never reports a loop failure). -/
theorem C8_error_conditions (exp p : ℕ) (hp : 1 ≤ p) :
    (isErr (partition_window_same_width exp p) = true ↔ bitLen exp ≤ p) ∧
    (isErr (partition_window_clnw exp p) = true ↔ bitLen exp < p) := by
  constructor
  · constructor
    · intro h
      by_contra hc
      rw [partition_window_same_width_ok (by omega)] at h
      exact absurd h (by rw [isErr]; simp)
    · intro h
      rw [partition_window_same_width_err h]
      rfl
  · constructor
    · intro h
      by_contra hc
      obtain ⟨ws, _, hpart⟩ := @partition_window_clnw_ok exp p hp (by omega)
      rw [hpart] at h
      exact absurd h (by rw [isErr]; simp)
    · intro h
      rw [partition_window_clnw_err h]
      rfl

/-- Witness for C8 at `exp = 215`, `p = 3`. -/
theorem C8_witness :
    (isErr (partition_window_same_width 215 3) = true ↔ bitLen 215 ≤ 3) ∧
    (isErr (partition_window_clnw 215 3) = true ↔ bitLen 215 < 3) :=
  C8_error_conditions 215 3 (by decide)

/-- C9: under valid parameters both partitioners return a non-empty
window sequence all of whose values are below `2 ^ maxLength`, and
consequently every power-table lookup of `pow_window` — including the
initial lookup of the most-significant window's value — stays within
the table of size `2 ^ maxLength`: both windowed wrappers return `some`
for every base and every modulus. -/
theorem C9_table_indexing_safe (exp p x mod : ℕ) (hp : 1 ≤ p) :
    (p < bitLen exp →
      partWindows (partition_window_same_width exp p) ≠ [] ∧
      (partWindows (partition_window_same_width exp p)).all
        (fun w => decide (w.value < 2 ^ partMax (partition_window_same_width exp p))) =
        true ∧
      (pow_window_same_width x exp mod p).isSome = true) ∧
    (p ≤ bitLen exp →
      partWindows (partition_window_clnw exp p) ≠ [] ∧
      (partWindows (partition_window_clnw exp p)).all
        (fun w => decide (w.value < 2 ^ partMax (partition_window_clnw exp p))) =
        true ∧
      (pow_window_clnw x exp mod p).isSome = true) := by
  constructor
  · intro h
    refine ⟨?_, ?_, ?_⟩
    · rw [partition_window_same_width_ok h, partWindows]
      exact same_width_ws_ne_nil hp h
    · rw [partition_window_same_width_ok h, List.all_eq_true]
      intro w hw
      rw [decide_eq_true_eq, partMax]
      rw [partWindows] at hw
      exact (same_width_window_facts hw).1
    · rw [pow_window_same_width]
      exact @pow_window_isSome x exp mod (fun u => partition_window_same_width u p) _ _
        (partition_window_same_width_ok h) (same_width_ws_ne_nil hp h)
        (fun u hu => (same_width_window_facts hu).1)
  · intro h
    obtain ⟨ws, hws, hpart⟩ := partition_window_clnw_ok hp h
    refine ⟨?_, ?_, ?_⟩
    · rw [hpart, partWindows]
      exact clnwLoop_ne_nil hws (by omega)
    · rw [hpart, List.all_eq_true]
      intro w hw
      rw [decide_eq_true_eq, partMax]
      rw [partWindows] at hw
      exact (clnw_all_facts hp hws w hw).1
    · rw [pow_window_clnw]
      exact @pow_window_isSome x exp mod (fun u => partition_window_clnw u p) ws
        (maxLens ws) hpart (clnwLoop_ne_nil hws (by omega))
        (fun u hu => (clnw_all_facts hp hws u hu).1)

/-- Witness for C9 at `exp = 215`, `p = 3`, `x = 2`, `mod = 0` (the
indexing safety does not depend on the modulus). -/
theorem C9_witness :
    (partWindows (partition_window_same_width 215 3) ≠ [] ∧
      (partWindows (partition_window_same_width 215 3)).all
        (fun w => decide (w.value < 2 ^ partMax (partition_window_same_width 215 3))) =
        true ∧
      (pow_window_same_width 2 215 0 3).isSome = true) ∧
    (partWindows (partition_window_clnw 215 3) ≠ [] ∧
      (partWindows (partition_window_clnw 215 3)).all
        (fun w => decide (w.value < 2 ^ partMax (partition_window_clnw 215 3))) =
        true ∧
      (pow_window_clnw 2 215 0 3).isSome = true) :=
  ⟨(C9_table_indexing_safe 215 3 2 0 (by decide)).1 (by decide),
   (C9_table_indexing_safe 215 3 2 0 (by decide)).2 (by decide)⟩

/-- C10: termination of the CLNW scan with `1 ≤ d ≤ bitLen exp`: any
fuel of at least `bitLen exp` outer iterations completes the scan and
all such fuels agree (every outer iteration strictly increases the scan
position: the nonzero scan advances it by exactly `d`, the zero scan by
`zscan ... ≥ 1`), and the inner zero scan always halts strictly before
`bitLen exp`, at or before the most-significant (set) bit. -/
theorem C10_clnw_terminates (exp d fuel : ℕ) (hd : 1 ≤ d) (_hdL : d ≤ bitLen exp)
    (hfuel : bitLen exp ≤ fuel) :
    (clnwLoop exp d 0 fuel).isSome = true ∧
    clnwLoop exp d 0 fuel = clnwLoop exp d 0 (bitLen exp) ∧
    (∀ pos, pos < bitLen exp → exp.testBit pos = false →
      pos + zscan exp pos (bitLen exp - pos) < bitLen exp) := by
  refine ⟨?_, ?_, fun pos hpos hbit => zscan_lt_bitLen hpos hbit⟩
  · obtain ⟨ws, hws⟩ := @clnwLoop_some exp d hd fuel 0 (by omega)
    rw [hws]
    rfl
  · exact clnwLoop_fuel_irrel hd fuel (bitLen exp) 0 (by omega) (by omega)

/-- Witness for C10 at `exp = 9 = 0b1001`, `d = 3`, `fuel = 7`
(`bitLen 9 = 4`), sampling the zero-scan bound at position 1. -/
theorem C10_witness :
    (clnwLoop 9 3 0 7).isSome = true ∧
    clnwLoop 9 3 0 7 = clnwLoop 9 3 0 (bitLen 9) ∧
    1 + zscan 9 1 (bitLen 9 - 1) < bitLen 9 := by
  obtain ⟨h1, h2, h3⟩ := C10_clnw_terminates 9 3 7 (by decide) (by decide) (by decide)
  exact ⟨h1, h2, h3 1 (by decide) (by decide)⟩

end Exponentiation
